import Mathlib

/-!
Verification of the sampling and ranking engine of the simple host monitor
(`scripts/monitor_simple.py`): memory/disk percentage computation with
fallback semantics, java-process discovery, per-process RSS and command-line
reading, keyword scoring, and the two report modes.

Modelling conventions:
- Text is modelled as `List Char`; the bytes of `/proc` files are modelled at
  the character level (the lossy `decode` with ignored errors is elided, and
  `lower` is the ASCII lowering, which agrees with the source on every keyword
  and test string used here).
- Arithmetic is exact: CPython ints are unbounded, and the float divisions of
  the source are modelled over `ℚ`; every concrete test value below is chosen
  so that the float computation of the source is exact as well.
- A fallible OS read is modelled as an `Option` input: `none` is a read that
  raised, and the `none` branch of each reader plays the role of the
  `except` handler of the source function.
-/

abbrev Str := List Char

/-- Whitespace set of the default `str.strip` / `str.split` of Python. -/
def pyIsSpace (c : Char) : Bool :=
  c = ' ' || c = '\t' || c = '\n' || c = '\r' || c = Char.ofNat 11 || c = Char.ofNat 12

/-- Python `s.strip()`: drop leading and trailing whitespace. -/
def pyStrip (s : Str) : Str :=
  ((s.dropWhile pyIsSpace).reverse.dropWhile pyIsSpace).reverse

/-- Python `s.split()` with no argument: split on whitespace runs, no empty tokens. -/
def pySplitWs (s : Str) : List Str :=
  (s.splitOnP pyIsSpace).filter (fun t => t ≠ [])

/-- Python `s.split(sep)` for a one-character separator: keeps empty fields. -/
def pySplitOn (sep : Char) (s : Str) : List Str :=
  s.splitOn sep

/-- Value of a nonempty all-digit token. -/
def digitsVal (s : Str) : Option Nat :=
  if s ≠ [] ∧ s.all Char.isDigit then
    some (s.foldl (fun a c => 10 * a + (c.toNat - 48)) 0)
  else none

/-- Python `int(token)` for an already-stripped token: optional sign then
digits; `none` models a raised `ValueError`. -/
def pyIntParse (s : Str) : Option Int :=
  match s with
  | '-' :: t => (digitsVal t).map (fun n => -(n : Int))
  | '+' :: t => (digitsVal t).map (fun n => (n : Int))
  | _ => (digitsVal s).map (fun n => (n : Int))

/-- Python `needle in hay` substring test on text. -/
def subOccurs (needle hay : Str) : Bool :=
  match hay with
  | [] => needle.isEmpty
  | _ :: t => needle.isPrefixOf hay || subOccurs needle t

/-- Python `s.lower()` (ASCII part). -/
def pyLower (s : Str) : Str := s.map Char.toLower

/-- Round a rational to the nearest integer with ties to even, the rounding
of the `round` builtin of CPython on exact inputs. -/
def pyRoundTiesEven (x : ℚ) : ℤ :=
  if x - Rat.floor x < 1/2 then Rat.floor x
  else if 1/2 < x - Rat.floor x then Rat.floor x + 1
  else if Rat.floor x % 2 = 0 then Rat.floor x else Rat.floor x + 1

/-- Python `round(x, 1)` on an exact value. -/
def pyRound1 (x : ℚ) : ℚ := (pyRoundTiesEven (10 * x) : ℚ) / 10

/-- Rounding to one decimal place with ties away from zero, as the spec
describes it ("standard half-away-from-zero rounding"); written from the
words of the spec, for comparison with `pyRound1`. -/
def specRoundAway1 (x : ℚ) : ℚ :=
  ((if 0 ≤ x then ⌊10 * x + 1/2⌋ else -⌊10 * (-x) + 1/2⌋ : ℤ) : ℚ) / 10

/- ### The meminfo reader (`get_mem_percent`, lines 30-49) -/

/-- The key-value view of `/proc/meminfo` after the parsing loop of
`get_mem_percent` (`mem[key] = int(val)`); values are the nonnegative
counters of the kernel.  The whole read is wrapped in an `Option`: `none` is
any raised error, handled by the `except` clause. -/
def Meminfo := String → Option Nat

def kMemTotal : String := "MemTotal"
def kMemAvailable : String := "MemAvailable"
def kMemFree : String := "MemFree"
def kBuffers : String := "Buffers"
def kCached : String := "Cached"

/-- `mem.get('MemAvailable', mem.get('MemFree', 0) + mem.get('Buffers', 0) +
mem.get('Cached', 0))` (line 43). -/
def memAvail (m : Meminfo) : Nat :=
  match m kMemAvailable with
  | some a => a
  | none => (m kMemFree).getD 0 + (m kBuffers).getD 0 + (m kCached).getD 0

/-- `get_mem_percent` (lines 30-49): percentage of used memory, rounded to
one decimal; `0` on zero total and on any read error. -/
def get_mem_percent (src : Option Meminfo) : ℚ :=
  match src with
  | none => 0
  | some m =>
    let total := (m kMemTotal).getD 0
    let avail := memAvail m
    if total = 0 then 0
    else pyRound1 (((total : ℚ) - (avail : ℚ)) / (total : ℚ) * 100)

/-- `get_disk_percent` (lines 52-57): `shutil.disk_usage` gives
`(total, used, free)` in bytes; a zero total raises `ZeroDivisionError`,
caught by the `except` clause, hence the `0` branch. -/
def get_disk_percent (d : Option (Nat × Nat × Nat)) : ℚ :=
  match d with
  | none => 0
  | some (total, used, _free) =>
    if total = 0 then 0
    else pyRound1 ((used : ℚ) / (total : ℚ) * 100)

/- ### Process discovery and per-process readers (lines 60-89) -/

/-- `find_java_pids` (lines 60-69): `none` input is a failed `pgrep` call
(nonzero exit status or a missing tool), `some out` is its decoded stdout.
A `ValueError` from `int(x)` is caught by the bare `except`, hence the
all-or-nothing `mapM`. -/
def find_java_pids (pgrepOut : Option Str) : List Int :=
  match pgrepOut with
  | none => []
  | some o =>
    let s := pyStrip o
    if s = [] then []
    else
      match ((pySplitWs s).filter (fun x => pyStrip x ≠ [])).mapM pyIntParse with
      | some pids => pids
      | none => []

/-- The per-process slice of `/proc` seen by one sampling cycle: the lines of
`/proc/pid/status` and the raw content of `/proc/pid/cmdline`; `none` is an
unreadable or vanished entry. -/
structure ProcFS where
  status : Int → Option (List Str)
  cmdlineRaw : Int → Option Str

def vmrssKey : Str := "VmRSS:".toList

/-- Body of the `for line in f` loop of `get_rss_kb`: the first line starting
with `VmRSS:` yields `int(line.split()[1])`; a missing second token
(`IndexError`) or a failed parse (`ValueError`) is caught, giving 0; no
matching line falls through to `return 0`. -/
def vmrssValue (lines : List Str) : Int :=
  match lines.find? (fun l => vmrssKey.isPrefixOf l) with
  | none => 0
  | some l =>
    match (pySplitWs l)[1]? with
    | none => 0
    | some tok => (pyIntParse tok).getD 0

/-- `get_rss_kb` (lines 72-80). -/
def get_rss_kb (fs : ProcFS) (pid : Int) : Int :=
  match fs.status pid with
  | none => 0
  | some lines => vmrssValue lines

/-- `get_cmdline` (lines 83-89): replace NUL separators by spaces, strip;
the same expression is inlined in `main` (lines 156-161). -/
def get_cmdline (fs : ProcFS) (pid : Int) : Str :=
  match fs.cmdlineRaw pid with
  | none => []
  | some raw => pyStrip (raw.map (fun c => if c = Char.ofNat 0 then ' ' else c))

/- ### Scoring and the live-mode cycle (`watch_java`, lines 92-133) -/

def defaultKeywords : List Str :=
  ["forge".toList, "minecraft".toList, "kubejs".toList,
   "server".toList, "paper".toList, "spigot".toList]

/-- `if filter_keywords is None: filter_keywords = [...]` (lines 97-98). -/
def resolveKeywords (filterKeywords : Option (List Str)) : List Str :=
  match filterKeywords with
  | none => defaultKeywords
  | some kws => kws

/-- The scoring loop of `watch_java` (lines 109-112): one point per keyword
whose lowering occurs in the lowered command line. -/
def scoreOf (kws : List Str) (cmd : Str) : Nat :=
  kws.foldl (fun acc kw => if subOccurs (pyLower kw) (pyLower cmd) then acc + 1 else acc) 0

/-- One row of the live view: `(score, pid, mb, cmd)` (line 113). -/
structure Row where
  score : Nat
  pid : Int
  mb : ℚ
  cmd : Str
deriving DecidableEq

/-- Per-pid work of the live loop (lines 105-113): `mb` is
`round(rss_kb / 1024, 1)`, the rounded display value. -/
def watchRow (fs : ProcFS) (kws : List Str) (pid : Int) : Row :=
  { score := scoreOf kws (get_cmdline fs pid)
    pid := pid
    mb := pyRound1 ((get_rss_kb fs pid : ℚ) / 1024)
    cmd := get_cmdline fs pid }

/-- The row-building loop (`for pid in pids: ... rows.append(...)`). -/
def watchRowsRaw (fs : ProcFS) (kws : List Str) (pids : List Int) : List Row :=
  pids.foldl (fun rows pid => rows ++ [watchRow fs kws pid]) []

/-- Stable insertion step for a strict before-order `lt`: `a` is placed in
front of the first element it is not strictly below. -/
def insertR (lt : α → α → Bool) (a : α) : List α → List α
  | [] => [a]
  | b :: t => if lt a b then b :: insertR lt a t else a :: b :: t

/-- Stable descending sort: `sortR lt` is extensionally the Python
`list.sort(key=k, reverse=True)` when `lt` is "strictly below on `k`", since
both are permutations, sorted descending on `k`, and stable — three
properties with a unique solution (proved below for the used instances). -/
def sortR (lt : α → α → Bool) : List α → List α
  | [] => []
  | a :: t => insertR lt a (sortR lt t)

/-- The sort key of line 116: `key=lambda x: (x[0], x[2])`, tuple order. -/
def ltWatch (x y : Row) : Bool :=
  decide (x.score < y.score ∨ (x.score = y.score ∧ x.mb < y.mb))

/-- `rows.sort(key=lambda x: (x[0], x[2]), reverse=True)` (line 116). -/
def rankRows (rows : List Row) : List Row := sortR ltWatch rows

/-- One full live-mode sampling cycle, from discovered pids to ranked rows. -/
def watchCycle (fs : ProcFS) (kws : List Str) (pids : List Int) : List Row :=
  rankRows (watchRowsRaw fs kws pids)

/-- The row marker of line 126: `'*' if score > 0 else ' '`. -/
def rowMark (r : Row) : Char := if 0 < r.score then '*' else ' '

def ellipsisMarker : Str := "...".toList

/-- The display truncation of line 127:
`cmd if len(cmd) < 120 else cmd[:117] + '...'`. -/
def shorten (cmd : Str) : Str :=
  if cmd.length < 120 then cmd else cmd.take 117 ++ ellipsisMarker

/- ### Snapshot mode (`main`, lines 136-167) -/

/-- One snapshot detail tuple `(pid, mb, cmd)` (line 162). -/
structure SnapRow where
  pid : Int
  mb : ℚ
  cmd : Str
deriving DecidableEq

/-- Per-pid work of the snapshot loop (lines 151-162); the command line is
read by the same inlined logic as `get_cmdline`. -/
def snapRow (fs : ProcFS) (pid : Int) : SnapRow :=
  { pid := pid
    mb := pyRound1 ((get_rss_kb fs pid : ℚ) / 1024)
    cmd := get_cmdline fs pid }

/-- The detail-building loop of `main`. -/
def snapRowsRaw (fs : ProcFS) (pids : List Int) : List SnapRow :=
  pids.foldl (fun det pid => det ++ [snapRow fs pid]) []

/-- The sort key of line 164: `key=lambda x: x[1]`, the rounded MB value. -/
def ltSnap (x y : SnapRow) : Bool := decide (x.mb < y.mb)

/-- `details.sort(key=lambda x: x[1], reverse=True)` (line 164). -/
def snapDetails (fs : ProcFS) (pids : List Int) : List SnapRow :=
  sortR ltSnap (snapRowsRaw fs pids)

/- ### CLI wiring used by claim C10 (lines 181-185) -/

/-- `kws = None; if args.filter: kws = [x.strip() for x in
args.filter.split(',') if x.strip()]`; an absent flag and an empty string
are both falsy in Python, hence the two `none` branches. -/
def parseFilterArg (filterArg : Option Str) : Option (List Str) :=
  match filterArg with
  | none => none
  | some s =>
    if s = [] then none
    else some (((pySplitOn ',' s).map pyStrip).filter (fun x => x ≠ []))

/- ### Spec-side model of the memory invariant (claim C1) -/

/-- Modelled from the spec: the "available" fallback chain of the spec,
"prefer an explicit available-memory counter; if absent, derive as
free+buffers+cache; if all absent, treat as 0". -/
def specAvailable (m : Meminfo) : Nat :=
  match m kMemAvailable with
  | some a => a
  | none => (m kMemFree).getD 0 + (m kBuffers).getD 0 + (m kCached).getD 0

/-- Modelled from the spec: "usedPercent = round((total-available)/total*100, 1)
when total>0, else 0 (defined fallback, not an error)"; a read error also
yields 0. -/
def specMemPercent (src : Option Meminfo) : ℚ :=
  match src with
  | none => 0
  | some m =>
    let total := (m kMemTotal).getD 0
    if 0 < total then
      pyRound1 (((total : ℚ) - (specAvailable m : ℚ)) / (total : ℚ) * 100)
    else 0

/- ### Concrete inputs used by the claim theorems -/

/-- Counters with the available-memory counter above the total; every value
here is exactly representable, so the float computation of the source is
exact on this input. -/
def memCexTbl : Meminfo := fun k =>
  if k = kMemTotal then some 100 else if k = kMemAvailable then some 200 else none

/-- Counters whose used percentage is exactly 6.25, a rounding tie; the float
computation of the source is exact on this input (64/1024*100 = 6.25). -/
def memTieTbl : Meminfo := fun k =>
  if k = kMemTotal then some 1024 else if k = kMemAvailable then some 960 else none

/-- The RAM-alert scenario of the spec: total 1000, available 200. -/
def memWitTbl : Meminfo := fun k =>
  if k = kMemTotal then some 1000 else if k = kMemAvailable then some 200 else none

/-- Two processes 1 KB apart in RSS, both rounding to 1.0 MB. -/
def snapCexFS : ProcFS where
  status := fun pid =>
    if pid = 1 then some [("VmRSS: 1000 kB").toList]
    else if pid = 2 then some [("VmRSS: 1001 kB").toList]
    else none
  cmdlineRaw := fun _ => none

def cex120 : Str := List.replicate 120 'a'

def wit200 : Str := List.replicate 200 'b'

/-- The view of a cycle in which every per-process read fails. -/
def nullFS : ProcFS where
  status := fun _ => none
  cmdlineRaw := fun _ => none

/- ### Rounding lemmas -/

theorem ratFloor_eq_floor (q : ℚ) : Rat.floor q = ⌊q⌋ :=
  le_antisymm (Int.le_floor.mpr (Rat.le_floor.mp le_rfl))
    (Rat.le_floor.mpr (Int.floor_le q))

theorem pyRoundTiesEven_abs_le (x : ℚ) : |(pyRoundTiesEven x : ℚ) - x| ≤ 1/2 := by
  have h1 : (⌊x⌋ : ℚ) ≤ x := Int.floor_le x
  have h2 : x < ⌊x⌋ + 1 := Int.lt_floor_add_one x
  unfold pyRoundTiesEven
  rw [ratFloor_eq_floor]
  split_ifs <;> rw [abs_le] <;> constructor <;> push_cast <;> linarith

theorem pyRoundTiesEven_nonneg (x : ℚ) (h : 0 ≤ x) : 0 ≤ pyRoundTiesEven x := by
  have h0 : 0 ≤ ⌊x⌋ := Int.floor_nonneg.mpr h
  unfold pyRoundTiesEven
  rw [ratFloor_eq_floor]
  split_ifs <;> omega

theorem pyRoundTiesEven_le (x : ℚ) (B : ℤ) (h : x ≤ (B : ℚ)) :
    pyRoundTiesEven x ≤ B := by
  have hfB : ⌊x⌋ ≤ B := by
    have := Int.floor_mono h
    simpa using this
  have h1 : (⌊x⌋ : ℚ) ≤ x := Int.floor_le x
  unfold pyRoundTiesEven
  rw [ratFloor_eq_floor]
  split_ifs with ha hb hc
  · exact hfB
  · -- here 1/2 < x - ⌊x⌋, so ⌊x⌋ < x ≤ B, hence ⌊x⌋ + 1 ≤ B
    have hlt : (⌊x⌋ : ℚ) < B := by linarith
    have : ⌊x⌋ < B := by exact_mod_cast hlt
    omega
  · exact hfB
  · have hlt : (⌊x⌋ : ℚ) < B := by
      have hr : ¬ x - ⌊x⌋ < 1/2 := ha
      linarith [not_lt.mp hr]
    have : ⌊x⌋ < B := by exact_mod_cast hlt
    omega

theorem pyRound1_tenths (x : ℚ) : ∃ k : ℤ, pyRound1 x = (k : ℚ)/10 :=
  ⟨pyRoundTiesEven (10 * x), rfl⟩

theorem pyRound1_abs_le (x : ℚ) : |pyRound1 x - x| ≤ 1/20 := by
  have h := pyRoundTiesEven_abs_le (10 * x)
  unfold pyRound1
  have h10 : (0:ℚ) < 10 := by norm_num
  rw [show (pyRoundTiesEven (10*x) : ℚ)/10 - x = ((pyRoundTiesEven (10*x) : ℚ) - 10*x)/10 by ring,
    abs_div, abs_of_pos h10]
  rw [div_le_iff₀ h10]
  linarith

theorem pyRound1_nonneg (x : ℚ) (h : 0 ≤ x) : 0 ≤ pyRound1 x := by
  unfold pyRound1
  have : (0:ℤ) ≤ pyRoundTiesEven (10 * x) := pyRoundTiesEven_nonneg _ (by linarith)
  positivity

theorem pyRound1_le_100 (x : ℚ) (h : x ≤ 100) : pyRound1 x ≤ 100 := by
  have hk : pyRoundTiesEven (10 * x) ≤ 1000 := by
    apply pyRoundTiesEven_le
    push_cast
    linarith
  unfold pyRound1
  rw [div_le_iff₀ (by norm_num : (0:ℚ) < 10)]
  calc (pyRoundTiesEven (10*x) : ℚ) ≤ 1000 := by exact_mod_cast hk
    _ = 100 * 10 := by norm_num

theorem pyRound1_eq_low (x : ℚ) (f : ℤ) (h1 : (f : ℚ) ≤ 10*x)
    (h2 : 10*x < (f : ℚ) + 1/2) : pyRound1 x = (f : ℚ)/10 := by
  have hfl : Rat.floor (10*x) = f := by
    rw [ratFloor_eq_floor, Int.floor_eq_iff]
    exact ⟨h1, by linarith⟩
  unfold pyRound1 pyRoundTiesEven
  rw [hfl, if_pos (by linarith)]

theorem pyRound1_eq_high (x : ℚ) (f : ℤ) (h1 : (f : ℚ) + 1/2 < 10*x)
    (h2 : 10*x < (f : ℚ) + 1) : pyRound1 x = ((f : ℚ) + 1)/10 := by
  have hfl : Rat.floor (10*x) = f := by
    rw [ratFloor_eq_floor, Int.floor_eq_iff]
    refine ⟨by linarith, by linarith⟩
  unfold pyRound1 pyRoundTiesEven
  rw [hfl, if_neg (by linarith), if_pos (by linarith)]
  push_cast
  ring

theorem pyRound1_eq_tie_even (x : ℚ) (f : ℤ) (h : 10*x = (f : ℚ) + 1/2)
    (he : f % 2 = 0) : pyRound1 x = (f : ℚ)/10 := by
  have hfl : Rat.floor (10*x) = f := by
    rw [ratFloor_eq_floor, Int.floor_eq_iff]
    refine ⟨by linarith, by linarith⟩
  unfold pyRound1 pyRoundTiesEven
  rw [hfl, if_neg (by linarith), if_neg (by linarith), if_pos he]

theorem pyRound1_zero : pyRound1 0 = 0 := by
  have h := pyRound1_eq_low 0 0 (by norm_num) (by norm_num)
  rw [h]; norm_num

/- ### List helper lemmas -/

theorem foldl_append_map {α β : Type*} (f : α → β) (l : List α) (init : List β) :
    l.foldl (fun acc x => acc ++ [f x]) init = init ++ l.map f := by
  induction l generalizing init with
  | nil => simp
  | cons a t ih => simp [ih]

theorem foldl_count {α : Type*} (p : α → Bool) (l : List α) (n : Nat) :
    l.foldl (fun acc x => if p x then acc + 1 else acc) n = n + l.countP p := by
  induction l generalizing n with
  | nil => simp
  | cons a t ih =>
    simp only [List.foldl_cons, List.countP_cons, ih]
    by_cases h : p a
    · simp [h]
      omega
    · simp [h]

theorem isPrefixOf_iff_exists {n h : Str} :
    n.isPrefixOf h = true ↔ ∃ t, n ++ t = h := by
  induction n generalizing h with
  | nil => simp [List.isPrefixOf]
  | cons a as ih =>
    cases h with
    | nil => simp [List.isPrefixOf]
    | cons b bs =>
      simp only [List.isPrefixOf, Bool.and_eq_true, beq_iff_eq, ih, List.cons_append]
      constructor
      · rintro ⟨rfl, t, rfl⟩
        exact ⟨t, rfl⟩
      · rintro ⟨t, het⟩
        injection het with h1 h2
        exact ⟨h1, t, h2⟩

theorem subOccurs_iff (n h : Str) :
    subOccurs n h = true ↔ ∃ pre post, pre ++ n ++ post = h := by
  induction h with
  | nil =>
    simp only [subOccurs, List.isEmpty_iff]
    constructor
    · rintro rfl
      exact ⟨[], [], rfl⟩
    · rintro ⟨pre, post, hpp⟩
      rcases List.append_eq_nil.mp hpp with ⟨h1, -⟩
      exact (List.append_eq_nil.mp h1).2
  | cons b bs ih =>
    simp only [subOccurs, Bool.or_eq_true, isPrefixOf_iff_exists, ih]
    constructor
    · rintro (⟨t, ht⟩ | ⟨pre, post, rfl⟩)
      · exact ⟨[], t, by simpa using ht⟩
      · exact ⟨b :: pre, post, rfl⟩
    · rintro ⟨pre, post, hpp⟩
      cases pre with
      | nil =>
        left
        exact ⟨post, by simpa using hpp⟩
      | cons p ps =>
        right
        refine ⟨ps, post, ?_⟩
        have := hpp
        simp only [List.cons_append] at this
        injection this with h1 h2

/- ### Sorting lemmas: `sortR` is a stable descending sort -/

theorem insertR_perm {α : Type*} (lt : α → α → Bool) (a : α) (l : List α) :
    List.Perm (insertR lt a l) (a :: l) := by
  induction l with
  | nil => exact List.Perm.refl [a]
  | cons b t ih =>
    unfold insertR
    by_cases h : lt a b = true
    · rw [if_pos h]
      exact (List.Perm.cons b ih).trans (List.Perm.swap a b t)
    · rw [if_neg h]

theorem sortR_perm {α : Type*} (lt : α → α → Bool) (l : List α) :
    List.Perm (sortR lt l) l := by
  induction l with
  | nil => exact List.Perm.refl []
  | cons a t ih => exact (insertR_perm lt a (sortR lt t)).trans (List.Perm.cons a ih)

theorem mem_insertR {α : Type*} (lt : α → α → Bool) (x a : α) (l : List α) :
    x ∈ insertR lt a l ↔ x = a ∨ x ∈ l := by
  rw [(insertR_perm lt a l).mem_iff]
  simp

theorem pairwise_insertR {α : Type*} (lt : α → α → Bool)
    (hA : ∀ a b, lt a b = true → lt b a = false)
    (hT : ∀ a b c, lt a b = false → lt b c = false → lt a c = false)
    (a : α) (l : List α) (h : l.Pairwise (fun x y => lt x y = false)) :
    (insertR lt a l).Pairwise (fun x y => lt x y = false) := by
  induction l with
  | nil => simp [insertR]
  | cons b t ih =>
    rcases List.pairwise_cons.mp h with ⟨hb, ht⟩
    unfold insertR
    by_cases hab : lt a b = true
    · rw [if_pos hab]
      refine List.pairwise_cons.mpr ⟨?_, ih ht⟩
      intro y hy
      rcases (mem_insertR lt y a t).mp hy with rfl | hyt
      · exact hA _ _ hab
      · exact hb y hyt
    · have haf : lt a b = false := by
        revert hab
        cases lt a b <;> simp
      rw [if_neg hab]
      refine List.pairwise_cons.mpr ⟨?_, h⟩
      intro y hy
      rcases List.mem_cons.mp hy with rfl | hyt
      · exact haf
      · exact hT a b y haf (hb y hyt)

theorem sortR_pairwise {α : Type*} (lt : α → α → Bool)
    (hA : ∀ a b, lt a b = true → lt b a = false)
    (hT : ∀ a b c, lt a b = false → lt b c = false → lt a c = false)
    (l : List α) :
    (sortR lt l).Pairwise (fun x y => lt x y = false) := by
  induction l with
  | nil => simp [sortR]
  | cons a t ih => exact pairwise_insertR lt hA hT a (sortR lt t) ih

theorem filter_insertR_pos {α : Type*} (lt : α → α → Bool) (p : α → Bool) (a : α)
    (hpa : p a = true) (hclash : ∀ b, p b = true → lt a b = false) (l : List α) :
    (insertR lt a l).filter p = a :: l.filter p := by
  induction l with
  | nil => simp [insertR, hpa]
  | cons b t ih =>
    unfold insertR
    by_cases hab : lt a b = true
    · have hpb : p b = false := by
        cases hb : p b
        · rfl
        · exact absurd (hclash b hb) (by simp [hab])
      rw [if_pos hab]
      simp [List.filter_cons, hpb, ih]
    · rw [if_neg hab]
      simp [List.filter_cons, hpa]

theorem filter_insertR_neg {α : Type*} (lt : α → α → Bool) (p : α → Bool) (a : α)
    (hpa : p a = false) (l : List α) :
    (insertR lt a l).filter p = l.filter p := by
  induction l with
  | nil => simp [insertR, hpa]
  | cons b t ih =>
    unfold insertR
    by_cases hab : lt a b = true
    · rw [if_pos hab]
      simp [List.filter_cons, ih]
    · rw [if_neg hab]
      simp [List.filter_cons, hpa]

theorem sortR_filter_stable {α : Type*} (lt : α → α → Bool) (p : α → Bool)
    (hclash : ∀ a b, p a = true → p b = true → lt a b = false) (l : List α) :
    (sortR lt l).filter p = l.filter p := by
  induction l with
  | nil => rfl
  | cons a t ih =>
    show (insertR lt a (sortR lt t)).filter p = _
    cases hpa : p a
    · rw [filter_insertR_neg lt p a hpa, ih]
      simp [List.filter_cons, hpa]
    · rw [filter_insertR_pos lt p a hpa (fun b hb => hclash a b hpa hb), ih]
      simp [List.filter_cons, hpa]

/- ### Properties of the two sort keys -/

theorem notLtWatch_iff (a b : Row) :
    ltWatch a b = false ↔ (b.score < a.score ∨ (a.score = b.score ∧ b.mb ≤ a.mb)) := by
  simp only [ltWatch, decide_eq_false_iff_not]
  constructor
  · intro h
    push_neg at h
    obtain ⟨h1, h2⟩ := h
    rcases Nat.lt_or_ge b.score a.score with hlt | hge
    · exact Or.inl hlt
    · have he : a.score = b.score := le_antisymm hge h1
      exact Or.inr ⟨he, h2 he⟩
  · rintro (hlt | ⟨he, hmb⟩)
    · rintro (h1 | ⟨h2, -⟩)
      · omega
      · omega
    · rintro (h1 | ⟨-, h3⟩)
      · omega
      · exact absurd h3 (not_lt.mpr hmb)

theorem ltWatch_asymm (a b : Row) : ltWatch a b = true → ltWatch b a = false := by
  intro h
  rw [notLtWatch_iff]
  simp only [ltWatch, decide_eq_true_eq] at h
  rcases h with h1 | ⟨he, hm⟩
  · exact Or.inl h1
  · exact Or.inr ⟨he.symm, le_of_lt hm⟩

theorem ltWatch_negtrans (a b c : Row) :
    ltWatch a b = false → ltWatch b c = false → ltWatch a c = false := by
  intro hab hbc
  rw [notLtWatch_iff] at hab hbc ⊢
  rcases hab with h1 | ⟨e1, m1⟩ <;> rcases hbc with h2 | ⟨e2, m2⟩
  · exact Or.inl (by omega)
  · exact Or.inl (by omega)
  · exact Or.inl (by omega)
  · exact Or.inr ⟨e1.trans e2, le_trans m2 m1⟩

theorem notLtSnap_iff (a b : SnapRow) : ltSnap a b = false ↔ b.mb ≤ a.mb := by
  simp [ltSnap, decide_eq_false_iff_not, not_lt]

theorem ltSnap_asymm (a b : SnapRow) : ltSnap a b = true → ltSnap b a = false := by
  intro h
  rw [notLtSnap_iff]
  simp only [ltSnap, decide_eq_true_eq] at h
  exact le_of_lt h

theorem ltSnap_negtrans (a b c : SnapRow) :
    ltSnap a b = false → ltSnap b c = false → ltSnap a c = false := by
  intro hab hbc
  rw [notLtSnap_iff] at hab hbc ⊢
  exact le_trans hbc hab

/- ### Shared evaluation helpers -/

theorem pyRound1_eq_tie_odd (x : ℚ) (f : ℤ) (h : 10*x = (f : ℚ) + 1/2)
    (ho : ¬ f % 2 = 0) : pyRound1 x = ((f : ℚ) + 1)/10 := by
  have hfl : Rat.floor (10*x) = f := by
    rw [ratFloor_eq_floor, Int.floor_eq_iff]
    refine ⟨by linarith, by linarith⟩
  unfold pyRound1 pyRoundTiesEven
  rw [hfl, if_neg (by linarith), if_neg (by linarith), if_neg ho]
  push_cast
  ring

theorem pyRound1_tie625 : pyRound1 (25/4) = 31/5 := by
  have h := pyRound1_eq_tie_even (25/4) 62 (by norm_num) (by decide)
  rw [h]; norm_num

theorem pyRound1_tie675 : pyRound1 (27/4) = 34/5 := by
  have h := pyRound1_eq_tie_odd (27/4) 67 (by norm_num) (by decide)
  rw [h]; norm_num

theorem pyRound1_neg100 : pyRound1 (-100) = -100 := by
  have h := pyRound1_eq_low (-100) (-1000) (by norm_num) (by norm_num)
  rw [h]; norm_num

theorem pyRound1_q1000 : pyRound1 ((1000:ℚ)/1024) = 1 := by
  have h := pyRound1_eq_high ((1000:ℚ)/1024) 9 (by norm_num) (by norm_num)
  rw [h]; norm_num

theorem pyRound1_q1001 : pyRound1 ((1001:ℚ)/1024) = 1 := by
  have h := pyRound1_eq_high ((1001:ℚ)/1024) 9 (by norm_num) (by norm_num)
  rw [h]; norm_num

/-- On a positive total, `get_mem_percent` is the rounded used fraction. -/
theorem get_mem_percent_pos_total (m : Meminfo) (h : 0 < (m kMemTotal).getD 0) :
    get_mem_percent (some m) =
      pyRound1 ((((m kMemTotal).getD 0 : ℚ) - (memAvail m : ℚ)) /
        ((m kMemTotal).getD 0 : ℚ) * 100) := by
  simp only [get_mem_percent]
  rw [if_neg (Nat.pos_iff_ne_zero.mp h)]

/-- The row-building loop touches each pid independently: it is a `map`. -/
theorem watchRowsRaw_eq_map (fs : ProcFS) (kws : List Str) (pids : List Int) :
    watchRowsRaw fs kws pids = pids.map (watchRow fs kws) := by
  unfold watchRowsRaw
  simpa using foldl_append_map (watchRow fs kws) pids []

/-- The snapshot detail loop touches each pid independently: it is a `map`. -/
theorem snapRowsRaw_eq_map (fs : ProcFS) (pids : List Int) :
    snapRowsRaw fs pids = pids.map (snapRow fs) := by
  unfold snapRowsRaw
  simpa using foldl_append_map (snapRow fs) pids []

/- ### Claim C1 -/

/-- C1: `get_mem_percent` returns `round((total-available)/total*100, 1)` when
`total>0` and `0` when `total=0`, with available taken from the explicit
`MemAvailable` counter if present, otherwise `MemFree+Buffers+Cached`
(each field defaulting to 0), and any read error also yields 0: the source
function refines the spec model `specMemPercent` exactly. -/
theorem memPercent_meets_spec : ∀ src, get_mem_percent src = specMemPercent src := by
  intro src
  cases src with
  | none => rfl
  | some m =>
    simp only [get_mem_percent, specMemPercent]
    have havail : memAvail m = specAvailable m := rfl
    rcases Nat.eq_zero_or_pos ((m kMemTotal).getD 0) with h | h
    · rw [h]
      simp
    · rw [if_neg (Nat.pos_iff_ne_zero.mp h), if_pos h, havail]

/- ### Claim C2 -/

/-- C2 counterexample: the claim asserts `usedPercent ∈ [0,100]` for every
input with `total>0` and no constraint relating available to total; with
`MemTotal=100` and `MemAvailable=200` the source computes `-100`, which is
not in `[0,100]`. -/
theorem memPercent_range_cex :
    get_mem_percent (some memCexTbl) = -100 ∧
    ¬ (0 ≤ get_mem_percent (some memCexTbl)) := by
  have h1 : get_mem_percent (some memCexTbl) =
      pyRound1 ((((memCexTbl kMemTotal).getD 0 : ℚ) - (memAvail memCexTbl : ℚ)) /
        ((memCexTbl kMemTotal).getD 0 : ℚ) * 100) :=
    get_mem_percent_pos_total memCexTbl (by decide)
  have h2 : ((memCexTbl kMemTotal).getD 0 : Nat) = 100 := rfl
  have h3 : memAvail memCexTbl = 200 := rfl
  rw [h2, h3] at h1
  rw [show (((100:Nat) : ℚ) - ((200:Nat) : ℚ)) / ((100:Nat) : ℚ) * 100 = -100 by
    push_cast; norm_num] at h1
  rw [h1, pyRound1_neg100]
  norm_num

/-- C2 amended: for total>0 the equality
`usedPercent = round((total-available)/total*100, 1)` always holds and
`usedPercent ≤ 100`; the lower bound `0 ≤ usedPercent` additionally needs
`available ≤ total` (the claim asserted the full interval without that
constraint). -/
theorem memPercent_range_amended (m : Meminfo) (h : 0 < (m kMemTotal).getD 0) :
    get_mem_percent (some m) =
      pyRound1 ((((m kMemTotal).getD 0 : ℚ) - (memAvail m : ℚ)) /
        ((m kMemTotal).getD 0 : ℚ) * 100)
    ∧ get_mem_percent (some m) ≤ 100
    ∧ (memAvail m ≤ (m kMemTotal).getD 0 → 0 ≤ get_mem_percent (some m)) := by
  have ht0 : (0:ℚ) < ((m kMemTotal).getD 0 : ℚ) := by exact_mod_cast h
  have heq := get_mem_percent_pos_total m h
  refine ⟨heq, ?_, ?_⟩
  · rw [heq]
    apply pyRound1_le_100
    have hle : (((m kMemTotal).getD 0 : ℚ) - (memAvail m : ℚ)) /
        ((m kMemTotal).getD 0 : ℚ) ≤ 1 := by
      rw [div_le_one ht0]
      have : (0:ℚ) ≤ (memAvail m : ℚ) := Nat.cast_nonneg _
      linarith
    have := mul_le_mul_of_nonneg_right hle (by norm_num : (0:ℚ) ≤ 100)
    linarith
  · intro hav
    rw [heq]
    apply pyRound1_nonneg
    have h1 : (memAvail m : ℚ) ≤ ((m kMemTotal).getD 0 : ℚ) := by exact_mod_cast hav
    have h2 : (0:ℚ) ≤ (((m kMemTotal).getD 0 : ℚ) - (memAvail m : ℚ)) /
        ((m kMemTotal).getD 0 : ℚ) := div_nonneg (by linarith) (le_of_lt ht0)
    have := mul_le_mul_of_nonneg_right h2 (by norm_num : (0:ℚ) ≤ 100)
    linarith

/-- C2 witness: the amended claim at total 1000, available 200. -/
theorem memPercent_range_witness :
    0 < (memWitTbl kMemTotal).getD 0 ∧
    memAvail memWitTbl ≤ (memWitTbl kMemTotal).getD 0 ∧
    get_mem_percent (some memWitTbl) ≤ 100 ∧
    0 ≤ get_mem_percent (some memWitTbl) :=
  ⟨by decide, by decide,
    (memPercent_range_amended memWitTbl (by decide)).2.1,
    (memPercent_range_amended memWitTbl (by decide)).2.2 (by decide)⟩

/- ### Claim C7 -/

/-- C7 counterexample: with exact used percentage 6.25 (total 1024,
available 960), the source returns 6.2 — the half-to-even rounding of the
`round` builtin — while half-away-from-zero rounding gives 6.3, so the
claimed rounding mode is wrong. -/
theorem rounding_mode_cex :
    get_mem_percent (some memTieTbl) = 31/5 ∧
    specRoundAway1 ((1024 - 960 : ℚ) / 1024 * 100) = 63/10 ∧
    (31/5 : ℚ) ≠ 63/10 := by
  refine ⟨?_, ?_, by norm_num⟩
  · have h1 := get_mem_percent_pos_total memTieTbl (by decide)
    have h2 : ((memTieTbl kMemTotal).getD 0 : Nat) = 1024 := rfl
    have h3 : memAvail memTieTbl = 960 := rfl
    rw [h2, h3] at h1
    rw [show (((1024:Nat) : ℚ) - ((960:Nat) : ℚ)) / ((1024:Nat) : ℚ) * 100 = 25/4 by
      push_cast; norm_num] at h1
    rw [h1, pyRound1_tie625]
  · unfold specRoundAway1
    rw [if_pos (by norm_num : (0:ℚ) ≤ (1024 - 960 : ℚ) / 1024 * 100)]
    rw [show 10 * ((1024 - 960 : ℚ) / 1024 * 100) + 1/2 = ((63:ℤ) : ℚ) by push_cast; norm_num]
    rw [Int.floor_intCast]
    norm_num

/-- C7 amended: both percentage readers round to one decimal place with the
rounding of the `round` builtin of Python — round-half-to-even, not
half-away-from-zero: the result is an integer number of tenths within 0.05
of the exact value, and an exact tie rounds to the even tenth
(6.25 to 6.2, 6.75 to 6.8). -/
theorem rounding_mode_amended :
    (∀ (m : Meminfo), 0 < (m kMemTotal).getD 0 →
      get_mem_percent (some m) =
        pyRound1 ((((m kMemTotal).getD 0 : ℚ) - (memAvail m : ℚ)) /
          ((m kMemTotal).getD 0 : ℚ) * 100))
    ∧ (∀ t u fr : Nat, 0 < t →
      get_disk_percent (some (t, u, fr)) = pyRound1 ((u : ℚ) / (t : ℚ) * 100))
    ∧ (∀ x : ℚ, (∃ k : ℤ, pyRound1 x = (k : ℚ)/10) ∧ |pyRound1 x - x| ≤ 1/20)
    ∧ pyRound1 (25/4) = 31/5 ∧ pyRound1 (27/4) = 34/5 := by
  refine ⟨get_mem_percent_pos_total, ?_, fun x => ⟨pyRound1_tenths x, pyRound1_abs_le x⟩,
    pyRound1_tie625, pyRound1_tie675⟩
  intro t u fr ht
  simp only [get_disk_percent]
  rw [if_neg (Nat.pos_iff_ne_zero.mp ht)]

/-- C7 witness: the amended claim at the tie table and at disk usage 1/4. -/
theorem rounding_mode_witness :
    0 < (memTieTbl kMemTotal).getD 0 ∧
    get_mem_percent (some memTieTbl) =
      pyRound1 ((((memTieTbl kMemTotal).getD 0 : ℚ) - (memAvail memTieTbl : ℚ)) /
        ((memTieTbl kMemTotal).getD 0 : ℚ) * 100) ∧
    0 < (4:Nat) ∧
    get_disk_percent (some (4, 1, 3)) = pyRound1 (((1:Nat) : ℚ) / ((4:Nat) : ℚ) * 100) :=
  ⟨by decide, rounding_mode_amended.1 memTieTbl (by decide),
    by decide, rounding_mode_amended.2.1 4 1 3 (by decide)⟩

/- ### Claim C3 -/

/-- C3: live-mode ranking is a stable sort by (score descending, rounded MB
descending): the ranked cycle is a permutation of the discovery-order rows,
pairwise sorted descending on the key (score, mb), any two rows with equal
score and equal rounded MB keep their discovery order (the filter on each
tie class is unchanged), and the compared MB value is `round(rss/1024, 1)`,
the rounded display value. -/
theorem watch_rank_stable :
    ∀ (fs : ProcFS) (kws : List Str) (pids : List Int),
      List.Perm (watchCycle fs kws pids) (watchRowsRaw fs kws pids)
      ∧ (watchCycle fs kws pids).Pairwise
          (fun a b => b.score < a.score ∨ (a.score = b.score ∧ b.mb ≤ a.mb))
      ∧ (∀ (s : Nat) (q : ℚ),
          (watchCycle fs kws pids).filter (fun r => decide (r.score = s ∧ r.mb = q)) =
            (watchRowsRaw fs kws pids).filter (fun r => decide (r.score = s ∧ r.mb = q)))
      ∧ (∀ pid, (watchRow fs kws pid).mb = pyRound1 ((get_rss_kb fs pid : ℚ) / 1024)) := by
  intro fs kws pids
  refine ⟨sortR_perm _ _, ?_, ?_, fun pid => rfl⟩
  · have hp := sortR_pairwise ltWatch ltWatch_asymm ltWatch_negtrans (watchRowsRaw fs kws pids)
    exact hp.imp (fun hab => (notLtWatch_iff _ _).mp hab)
  · intro s q
    apply sortR_filter_stable
    intro a b ha hb
    simp only [decide_eq_true_eq] at ha hb
    rw [notLtWatch_iff]
    exact Or.inr ⟨ha.1.trans hb.1.symm, le_of_eq (hb.2.trans ha.2.symm)⟩

/- ### Claim C4 -/

/-- C4 counterexample: the claim says the process with strictly greater RSS
is emitted first, but the snapshot sort key is the *rounded MB*: pids 1 and 2
with RSS 1000 KB and 1001 KB both round to 1.0 MB, tie, and keep discovery
order, so the strictly larger process is emitted second. -/
theorem snap_order_cex :
    get_rss_kb snapCexFS 1 < get_rss_kb snapCexFS 2 ∧
    (snapDetails snapCexFS [1, 2]).map SnapRow.pid = [1, 2] := by
  constructor
  · decide
  · have hmb1 : (snapRow snapCexFS 1).mb = 1 := by
      show pyRound1 ((get_rss_kb snapCexFS 1 : ℚ) / 1024) = 1
      rw [show get_rss_kb snapCexFS 1 = 1000 from by decide]
      rw [show ((1000:ℤ) : ℚ) / 1024 = (1000:ℚ)/1024 by norm_num]
      exact pyRound1_q1000
    have hmb2 : (snapRow snapCexFS 2).mb = 1 := by
      show pyRound1 ((get_rss_kb snapCexFS 2 : ℚ) / 1024) = 1
      rw [show get_rss_kb snapCexFS 2 = 1001 from by decide]
      rw [show ((1001:ℤ) : ℚ) / 1024 = (1001:ℚ)/1024 by norm_num]
      exact pyRound1_q1001
    have hlt : ltSnap (snapRow snapCexFS 1) (snapRow snapCexFS 2) = false := by
      rw [notLtSnap_iff, hmb1, hmb2]
    have hrows : snapRowsRaw snapCexFS [1, 2] = [snapRow snapCexFS 1, snapRow snapCexFS 2] := by
      rw [snapRowsRaw_eq_map]
      rfl
    have hsorted : snapDetails snapCexFS [1, 2] =
        [snapRow snapCexFS 1, snapRow snapCexFS 2] := by
      unfold snapDetails
      rw [hrows]
      show insertR ltSnap (snapRow snapCexFS 1)
        (insertR ltSnap (snapRow snapCexFS 2) (sortR ltSnap [])) = _
      show insertR ltSnap (snapRow snapCexFS 1) [snapRow snapCexFS 2] = _
      unfold insertR
      rw [hlt]
      simp
    rw [hsorted]
    rfl

/-- C4 amended: in snapshot mode the per-process lines are a stable
descending sort on the *rounded MB* value (`round(rss/1024, 1)`), keyword
score playing no role; a process with strictly greater rounded MB is emitted
first, while equal rounded MB falls back to discovery order. -/
theorem snap_order_amended :
    ∀ (fs : ProcFS) (pids : List Int),
      List.Perm (snapDetails fs pids) (snapRowsRaw fs pids)
      ∧ (snapDetails fs pids).Pairwise (fun a b => b.mb ≤ a.mb)
      ∧ (∀ q : ℚ, (snapDetails fs pids).filter (fun r => decide (r.mb = q)) =
          (snapRowsRaw fs pids).filter (fun r => decide (r.mb = q)))
      ∧ (∀ pid, (snapRow fs pid).mb = pyRound1 ((get_rss_kb fs pid : ℚ) / 1024)) := by
  intro fs pids
  refine ⟨sortR_perm _ _, ?_, ?_, fun pid => rfl⟩
  · have hp := sortR_pairwise ltSnap ltSnap_asymm ltSnap_negtrans (snapRowsRaw fs pids)
    exact hp.imp (fun hab => (notLtSnap_iff _ _).mp hab)
  · intro q
    apply sortR_filter_stable
    intro a b ha hb
    simp only [decide_eq_true_eq] at ha hb
    rw [notLtSnap_iff, ha, hb]

/- ### Claim C5 -/

/-- C5: the score is the count of keywords of the given list occurring as a
case-insensitive substring of the command line (each keyword at most once),
`subOccurs` being exactly substring occurrence; a caller-supplied list fully
replaces the default set and is never merged with it, witnessed by
`score("MyForgeServer", [forge]) = 1` and
`score("MyForgeServer", [minecraft]) = 0`. -/
theorem score_spec :
    (∀ kws cmd, scoreOf kws cmd =
      kws.countP (fun kw => subOccurs (pyLower kw) (pyLower cmd)))
    ∧ (∀ n h, subOccurs n h = true ↔ ∃ pre post, pre ++ n ++ post = h)
    ∧ scoreOf ["forge".toList] ("MyForgeServer".toList) = 1
    ∧ scoreOf ["minecraft".toList] ("MyForgeServer".toList) = 0
    ∧ (∀ kws, resolveKeywords (some kws) = kws)
    ∧ resolveKeywords none = defaultKeywords := by
  refine ⟨?_, subOccurs_iff, by decide, by decide, fun kws => rfl, rfl⟩
  intro kws cmd
  unfold scoreOf
  rw [foldl_count]
  simp

/- ### Claim C6 -/

/-- C6 counterexample: the claim says a command line of 120 characters or
fewer is rendered unmodified, but the source condition is `len(cmd) < 120`,
so a 120-character command line is truncated (its last three characters are
replaced by the marker). -/
theorem shorten_boundary_cex :
    cex120.length = 120 ∧ shorten cex120 ≠ cex120 := by
  constructor
  · decide
  · decide

/-- C6 amended: a command line of *fewer than* 120 characters is rendered
unmodified; one of 120 characters or more is rendered as its first 117
characters plus the 3-character marker, exactly 120 characters in all. -/
theorem shorten_amended :
    ∀ cmd : Str,
      (cmd.length < 120 → shorten cmd = cmd) ∧
      (120 ≤ cmd.length →
        shorten cmd = cmd.take 117 ++ ellipsisMarker ∧ (shorten cmd).length = 120) := by
  intro cmd
  constructor
  · intro h
    simp [shorten, h]
  · intro h
    have hn : ¬ cmd.length < 120 := not_lt.mpr h
    refine ⟨by simp [shorten, hn], ?_⟩
    simp only [shorten, if_neg hn, List.length_append, List.length_take]
    have : ellipsisMarker.length = 3 := rfl
    omega

set_option maxRecDepth 8000 in
/-- C6 witness: the amended claim at a 200-character command line. -/
theorem shorten_witness :
    120 ≤ wit200.length ∧
    (shorten wit200 = wit200.take 117 ++ ellipsisMarker ∧ (shorten wit200).length = 120) :=
  ⟨by decide, (shorten_amended wit200).2 (by decide)⟩

/- ### Claim C8 -/

/-- C8: every reader degrades to its default on a failed read instead of
propagating an error — 0 for the two percentage readers, the empty pid list
for discovery, 0 KB for RSS, empty text for the command line — and both
per-pid loops are maps, so each pid is processed independently of the
outcome for every other pid. -/
theorem degraded_defaults :
    get_mem_percent none = 0
    ∧ get_disk_percent none = 0
    ∧ find_java_pids none = []
    ∧ (∀ fs pid, fs.status pid = none → get_rss_kb fs pid = 0)
    ∧ (∀ fs pid, fs.cmdlineRaw pid = none → get_cmdline fs pid = [])
    ∧ (∀ fs kws pids, watchRowsRaw fs kws pids = pids.map (watchRow fs kws))
    ∧ (∀ fs pids, snapRowsRaw fs pids = pids.map (snapRow fs)) := by
  refine ⟨rfl, rfl, rfl, ?_, ?_, watchRowsRaw_eq_map, snapRowsRaw_eq_map⟩
  · intro fs pid h
    simp [get_rss_kb, h]
  · intro fs pid h
    simp [get_cmdline, h]

/-- C8 witness: the per-pid readers at a vanished pid of the all-failing
process view. -/
theorem degraded_defaults_witness :
    nullFS.status 7 = none ∧ get_rss_kb nullFS 7 = 0 ∧
    nullFS.cmdlineRaw 7 = none ∧ get_cmdline nullFS 7 = [] :=
  ⟨rfl, degraded_defaults.2.2.2.1 nullFS 7 rfl, rfl,
    degraded_defaults.2.2.2.2.1 nullFS 7 rfl⟩

/- ### Claim C9 -/

/-- C9: a process that disappears between pid discovery and per-pid
inspection is still included in both modes — the row lists keep one entry
per discovered pid — and its entry carries 0 resident KB (hence 0.0 MB) and
an empty command line. -/
theorem vanished_pid_kept :
    ∀ (fs : ProcFS) (kws : List Str) (pids : List Int) (pid : Int),
      pid ∈ pids → fs.status pid = none → fs.cmdlineRaw pid = none →
      get_rss_kb fs pid = 0
      ∧ watchRow fs kws pid = { score := scoreOf kws [], pid := pid, mb := 0, cmd := [] }
      ∧ (watchRowsRaw fs kws pids).length = pids.length
      ∧ watchRow fs kws pid ∈ watchCycle fs kws pids
      ∧ snapRow fs pid = { pid := pid, mb := 0, cmd := [] }
      ∧ (snapRowsRaw fs pids).length = pids.length
      ∧ snapRow fs pid ∈ snapDetails fs pids := by
  intro fs kws pids pid hmem hst hcmd
  have hrss : get_rss_kb fs pid = 0 := by simp [get_rss_kb, hst]
  have hcl : get_cmdline fs pid = [] := by simp [get_cmdline, hcmd]
  have hmb0 : pyRound1 ((get_rss_kb fs pid : ℚ) / 1024) = 0 := by
    rw [hrss]
    rw [show ((0:ℤ) : ℚ) / 1024 = 0 by norm_num]
    exact pyRound1_zero
  have hwmem : watchRow fs kws pid ∈ watchRowsRaw fs kws pids := by
    rw [watchRowsRaw_eq_map]
    exact List.mem_map_of_mem _ hmem
  have hsmem : snapRow fs pid ∈ snapRowsRaw fs pids := by
    rw [snapRowsRaw_eq_map]
    exact List.mem_map_of_mem _ hmem
  refine ⟨hrss, ?_, ?_, ?_, ?_, ?_, ?_⟩
  · unfold watchRow
    rw [hcl, hmb0]
  · rw [watchRowsRaw_eq_map, List.length_map]
  · exact ((sortR_perm ltWatch (watchRowsRaw fs kws pids)).mem_iff).mpr hwmem
  · unfold snapRow
    rw [hcl, hmb0]
  · rw [snapRowsRaw_eq_map, List.length_map]
  · exact ((sortR_perm ltSnap (snapRowsRaw fs pids)).mem_iff).mpr hsmem

/-- C9 witness: a single discovered pid whose `/proc` entries have vanished. -/
theorem vanished_pid_witness :
    (5:Int) ∈ ([5] : List Int) ∧
    nullFS.status 5 = none ∧
    nullFS.cmdlineRaw 5 = none ∧
    (get_rss_kb nullFS 5 = 0
      ∧ watchRow nullFS defaultKeywords 5 =
          { score := scoreOf defaultKeywords [], pid := 5, mb := 0, cmd := [] }
      ∧ (watchRowsRaw nullFS defaultKeywords [5]).length = ([5] : List Int).length
      ∧ watchRow nullFS defaultKeywords 5 ∈ watchCycle nullFS defaultKeywords [5]
      ∧ snapRow nullFS 5 = { pid := 5, mb := 0, cmd := [] }
      ∧ (snapRowsRaw nullFS [5]).length = ([5] : List Int).length
      ∧ snapRow nullFS 5 ∈ snapDetails nullFS [5]) :=
  ⟨by decide, rfl, rfl,
    vanished_pid_kept nullFS defaultKeywords [5] 5 (by decide) rfl rfl⟩

/- ### Claim C10 -/

/-- C10: the default keyword set is substituted only for the absent value:
a filter argument of only commas and whitespace parses to `some []`, the
explicitly empty list is used as-is, every score over the empty keyword list
is 0, and hence every rendered row of such a cycle carries the space marker,
never the star. -/
theorem empty_filter_no_marks :
    parseFilterArg (some (",".toList)) = some []
    ∧ parseFilterArg (some (" , ,, ".toList)) = some []
    ∧ parseFilterArg none = none
    ∧ resolveKeywords (some []) = []
    ∧ (∀ cmd, scoreOf [] cmd = 0)
    ∧ (∀ fs pids r, r ∈ watchRowsRaw fs [] pids → rowMark r = ' ') := by
  refine ⟨by decide, by decide, rfl, rfl, fun cmd => rfl, ?_⟩
  intro fs pids r hr
  rw [watchRowsRaw_eq_map] at hr
  rcases List.mem_map.mp hr with ⟨pid, -, rfl⟩
  show rowMark (watchRow fs [] pid) = ' '
  simp [rowMark, watchRow, scoreOf]

/-- C10 witness: a concrete cycle with the explicitly empty keyword list. -/
theorem empty_filter_witness :
    watchRow nullFS [] 3 ∈ watchRowsRaw nullFS [] [3] ∧
    rowMark (watchRow nullFS [] 3) = ' ' := by
  have hmem : watchRow nullFS [] 3 ∈ watchRowsRaw nullFS [] [3] := by
    simp [watchRowsRaw]
  exact ⟨hmem, empty_filter_no_marks.2.2.2.2.2 nullFS [3] _ hmem⟩
